import Mathlib

/-!
Verification development for the contact-store repository
(`src/contact_app.py`): a record store with a per-character tree index on
name and phone, a write-ahead log, and atomic snapshotting.

Strings are modelled as `List Char` (Python iterates strings character by
character).  Python `dict`s are modelled as association lists with
update-in-place / append-at-end semantics (`setA`), and Python `set`s of
ids as duplicate-free `List Nat` (`addId` adds only when absent; `discard`
removes the element).
-/

/-- Association-list lookup, modelling Python `d[k]` / `d.get(k)`. -/
def getA {κ α : Type} [DecidableEq κ] : List (κ × α) → κ → Option α
  | [], _ => none
  | (k', v') :: rest, k => if k' = k then some v' else getA rest k

/-- Association-list write, modelling Python `d[k] = v`: replace the value
at an existing key in place, else append the new binding at the end. -/
def setA {κ α : Type} [DecidableEq κ] : List (κ × α) → κ → α → List (κ × α)
  | [], k, v => [(k, v)]
  | (k', v') :: rest, k, v =>
    if k' = k then (k, v) :: rest else (k', v') :: setA rest k v

/-- Association-list removal, modelling Python `del d[k]` / `d.pop(k, None)`.
Implemented as a filter; on the duplicate-free key lists produced by `setA`
this removes exactly the binding for `k`. -/
def delA {κ α : Type} [DecidableEq κ] (l : List (κ × α)) (k : κ) : List (κ × α) :=
  l.filter (fun e => e.1 ≠ k)

/-- Python `set.add`: add an id only when it is not already present. -/
def addId (l : List Nat) (i : Nat) : List Nat :=
  if i ∈ l then l else l ++ [i]

/-- A node of the per-character tree (`TrieNode` in `contact_app.py`):
a children map keyed by one character, and a set of contact ids. -/
inductive TrieNode : Type where
  | node (children : List (Char × TrieNode)) (ids : List Nat)

/-- Children map of a node. -/
def TrieNode.children : TrieNode → List (Char × TrieNode)
  | node c _ => c

/-- Id set of a node. -/
def TrieNode.ids : TrieNode → List Nat
  | node _ i => i

/-- The child which `Trie.insert` descends into after adding `cid` to its
id set: the existing child when present, else a freshly created node. -/
def bump : Option TrieNode → Nat → TrieNode
  | some (.node ch ids), cid => .node ch (addId ids cid)
  | none, cid => .node [] (addId [] cid)

/-- `Trie.insert(key, cid)`: walk `key` from the root, creating missing
children, and add `cid` to the id set of every node strictly below the
root along the path.  The root's own id set is never touched. -/
def insT : TrieNode → List Char → Nat → TrieNode
  | t, [], _ => t
  | .node ch ids, a :: rest, cid =>
    TrieNode.node (setA ch a (insT (bump (getA ch a) cid) rest cid)) ids

/-- `Trie.prefix_search(p)`: walk the path spelled by `p`; empty result if
a character is missing, else the id set at the terminal node. -/
def searchT : TrieNode → List Char → List Nat
  | .node _ ids, [] => ids
  | .node ch _, a :: rest =>
    match getA ch a with
    | none => []
    | some child => searchT child rest

/-- Whether the full path spelled by `key` exists in the tree
(the first loop of `Trie.remove`, which returns early on a missing child). -/
def pathEx : TrieNode → List Char → Bool
  | _, [] => true
  | .node ch _, a :: rest =>
    match getA ch a with
    | none => false
    | some child => pathEx child rest

/-- The second loop of `Trie.remove`, processing the stacked
`(parent, ch)` pairs top-down: discard `cid` from the child's id set and,
if the child is then empty and — at this moment, before any deeper
processing — has no children, delete it from the parent.  A child deleted
here detaches its whole subtree, so deeper discards are dropped. -/
def remGo : TrieNode → List Char → Nat → TrieNode
  | t, [], _ => t
  | .node ch ids, a :: rest, cid =>
    match getA ch a with
    | none => TrieNode.node ch ids
    | some child =>
      if (child.ids.filter (fun i => i ≠ cid)).isEmpty && child.children.isEmpty then
        TrieNode.node (delA ch a) ids
      else
        TrieNode.node
          (setA ch a
            (remGo (TrieNode.node child.children (child.ids.filter (fun i => i ≠ cid))) rest cid))
          ids

/-- `Trie.remove(key, cid)`: no-op when some character of `key` has no
child along the path; otherwise run the top-down discard-and-prune pass. -/
def remT (t : TrieNode) (key : List Char) (cid : Nat) : TrieNode :=
  if pathEx t key then remGo t key cid else t

/-- Insertion into a sorted list of naturals. -/
def insSorted (i : Nat) : List Nat → List Nat
  | [] => [i]
  | j :: rest => if i ≤ j then i :: j :: rest else j :: insSorted i rest

/-- Insertion sort on naturals, modelling Python `sorted`. -/
def sortNats (l : List Nat) : List Nat :=
  l.foldr insSorted []

/-- A contact record (`Contact` in `contact_app.py`). -/
structure Contact : Type where
  id : Nat
  name : List Char
  phone : List Char
  note : List Char
deriving DecidableEq, Repr

/-- A write-ahead-log entry, mirroring the JSON entries written by
`add_contact` / `delete_contact_by_phone` / `update_contact`: the update
entry carries a field exactly when the corresponding argument was not
`None`. -/
inductive Entry : Type where
  | add (id : Nat) (name phone note : List Char)
  | del (id : Nat)
  | upd (id : Nat) (name phone note : Option (List Char))
deriving DecidableEq, Repr

/-- A line of the WAL file: `some e` is a well-formed serialized entry,
`none` models a malformed (torn) line that `json.loads` cannot parse. -/
abbrev WalLine := Option Entry

/-- The full `ContactManager` state, including the two persisted files:
`wal` is the WAL file's lines and `snapshot` the snapshot file's content
(`none` when the file does not exist). -/
structure Mgr : Type where
  contacts : List Contact
  phone_index : List (List Char × Nat)
  name_trie : TrieNode
  phone_trie : TrieNode
  next_id : Nat
  wal : List WalLine
  snapshot : Option (Nat × List Contact)

/-- The freshly initialized manager: no contacts, empty indexes,
`next_id = 1`, no files on disk. -/
def Mgr.empty : Mgr :=
  { contacts := [], phone_index := [], name_trie := .node [] [],
    phone_trie := .node [] [], next_id := 1, wal := [], snapshot := none }

/-- `_append_wal`: append one serialized entry to the WAL file. -/
def appendWal (st : Mgr) (e : Entry) : Mgr :=
  { st with wal := st.wal ++ [some e] }

/-- `_write_snapshot`: atomically install `{next_id, contacts}` as the
snapshot file, then truncate the WAL file. -/
def write_snapshot (st : Mgr) : Mgr :=
  { st with snapshot := some (st.next_id, st.contacts), wal := [] }

/-- First contact whose id is `cid` (the `for c in self.contacts:
if c.id == cid` loops). -/
def findC (cs : List Contact) (cid : Nat) : Option Contact :=
  cs.find? (fun c => c.id == cid)

/-- Remove the first contact whose id is `cid` (`self.contacts.pop(i)` at
the first matching index). -/
def removeFirst : List Contact → Nat → List Contact
  | [], _ => []
  | c :: rest, cid => if c.id = cid then rest else c :: removeFirst rest cid

/-- Replace the first contact whose id is `cid` by `c'` (the in-place
mutation of the first matching list element). -/
def replaceFirst : List Contact → Nat → Contact → List Contact
  | [], _, _ => []
  | c :: rest, cid, c' => if c.id = cid then c' :: rest else c :: replaceFirst rest cid c'

/-- The in-memory effect of a delete (shared by the live operation and
WAL replay): find the first contact with id `cid`; if present, remove its
name and phone from the trees, pop its phone from the phone map, and drop
it from the list. -/
def applyDelete (st : Mgr) (cid : Nat) : Mgr :=
  match findC st.contacts cid with
  | none => st
  | some c =>
    { st with
      name_trie := remT st.name_trie c.name cid,
      phone_trie := remT st.phone_trie c.phone cid,
      phone_index := delA st.phone_index c.phone,
      contacts := removeFirst st.contacts cid }

/-- The updated contact value: each supplied field replaces the old one,
omitted fields keep their previous values. -/
def updContact (c : Contact) (nOpt pOpt ntOpt : Option (List Char)) : Contact :=
  { c with name := nOpt.getD c.name, phone := pOpt.getD c.phone,
           note := ntOpt.getD c.note }

/-- Name-tree maintenance of an update: when a new name is supplied and
differs from the old one, remove the old key and insert the new one. -/
def updNameT (t : TrieNode) (c : Contact) (cid : Nat) : Option (List Char) → TrieNode
  | none => t
  | some n => if n = c.name then t else insT (remT t c.name cid) n cid

/-- Phone-tree maintenance of an update (same shape as `updNameT`). -/
def updPhoneT (t : TrieNode) (c : Contact) (cid : Nat) : Option (List Char) → TrieNode
  | none => t
  | some np => if np = c.phone then t else insT (remT t c.phone cid) np cid

/-- Phone-map maintenance of an update: when the phone changes, pop the
old phone and bind the new phone to `cid`. -/
def updIdx (idx : List (List Char × Nat)) (c : Contact) (cid : Nat) :
    Option (List Char) → List (List Char × Nat)
  | none => idx
  | some np => if np = c.phone then idx else setA (delA idx c.phone) np cid

/-- The in-memory effect of an update (shared by the live operation and
WAL replay): find the first contact with id `cid`; if present, apply the
supplied fields to it and maintain both trees and the phone map. -/
def applyUpdate (st : Mgr) (cid : Nat) (nOpt pOpt ntOpt : Option (List Char)) : Mgr :=
  match findC st.contacts cid with
  | none => st
  | some c =>
    { st with
      contacts := replaceFirst st.contacts cid (updContact c nOpt pOpt ntOpt),
      name_trie := updNameT st.name_trie c cid nOpt,
      phone_trie := updPhoneT st.phone_trie c cid pOpt,
      phone_index := updIdx st.phone_index c cid pOpt }

/-- `add_contact(name, phone, note)`: reject when `phone` is already a key
of the phone map (returning `none` with the state untouched); otherwise
log the entry, apply it in memory, bump `next_id`, snapshot and truncate
the WAL. -/
def add_contact (st : Mgr) (name phone note : List Char) : Option Nat × Mgr :=
  if (getA st.phone_index phone).isSome then (none, st)
  else
    let cid := st.next_id
    let st1 := appendWal st (.add cid name phone note)
    let c : Contact := { id := cid, name := name, phone := phone, note := note }
    let st2 :=
      { st1 with
        contacts := st1.contacts ++ [c],
        phone_index := setA st1.phone_index phone cid,
        name_trie := insT st1.name_trie name cid,
        phone_trie := insT st1.phone_trie phone cid,
        next_id := st1.next_id + 1 }
    (some cid, write_snapshot st2)

/-- `delete_contact_by_phone(phone)`: look the id up in the phone map;
if absent return `false`, else log, apply the delete in memory, snapshot
and truncate. -/
def delete_contact_by_phone (st : Mgr) (phone : List Char) : Bool × Mgr :=
  match getA st.phone_index phone with
  | none => (false, st)
  | some cid =>
    let st1 := appendWal st (.del cid)
    (true, write_snapshot (applyDelete st1 cid))

/-- The duplicate test of `update_contact` (line 252 of the source):
reject only when a new phone was supplied, is truthy (non-empty — the
source's `if new_phone` truthiness test skips empty strings), differs
from the looked-up phone, and is already a key of the phone map. -/
def dupChk (idx : List (List Char × Nat)) (phone : List Char) :
    Option (List Char) → Bool
  | none => false
  | some np => !np.isEmpty && np != phone && (getA idx np).isSome

/-- `update_contact(phone, name, new_phone, note)`: look the id up; reject
a colliding phone change (`dupChk`); otherwise log, apply in memory,
snapshot and truncate. -/
def update_contact (st : Mgr) (phone : List Char)
    (nOpt pOpt ntOpt : Option (List Char)) : Bool × Mgr :=
  match getA st.phone_index phone with
  | none => (false, st)
  | some cid =>
    if dupChk st.phone_index phone pOpt then (false, st)
    else
      (true, write_snapshot (applyUpdate (appendWal st (.upd cid nOpt pOpt ntOpt))
        cid nOpt pOpt ntOpt))

/-- `list_contacts()`: the contact list in list order (each record
serialized to a dict, a bijective repackaging elided here). -/
def list_contacts (st : Mgr) : List Contact :=
  st.contacts

/-- The dict `{c.id: c for c in self.contacts}` looked up at `i`: the last
binding for a key wins. -/
def idDict (cs : List Contact) (i : Nat) : Option Contact :=
  cs.reverse.find? (fun c => c.id == i)

/-- `find_by_name_prefix(p)`: query the name tree, sort the id set
ascending, and collect each id's record from the id dict when present. -/
def findByNamePfx (st : Mgr) (p : List Char) : List Contact :=
  (sortNats (searchT st.name_trie p).dedup).filterMap (idDict st.contacts)

/-- `find_by_phone_prefix(p)`: same as `findByNamePfx` over the phone
tree. -/
def findByPhonePfx (st : Mgr) (p : List Char) : List Contact :=
  (sortNats (searchT st.phone_trie p).dedup).filterMap (idDict st.contacts)

/-- `linear_search_name_prefix(p)`: brute-force scan with `startswith`. -/
def linearNamePfx (st : Mgr) (p : List Char) : List Contact :=
  st.contacts.filter (fun c => p.isPrefixOf c.name)

/-- `linear_search_phone_prefix(p)`: brute-force scan with `startswith`. -/
def linearPhonePfx (st : Mgr) (p : List Char) : List Contact :=
  st.contacts.filter (fun c => p.isPrefixOf c.phone)

/-- States reachable from the fresh store by the three mutating
operations. -/
inductive Reachable : Mgr → Prop where
  | empty : Reachable Mgr.empty
  | add (st : Mgr) (name phone note : List Char) :
      Reachable st → Reachable (add_contact st name phone note).2
  | del (st : Mgr) (phone : List Char) :
      Reachable st → Reachable (delete_contact_by_phone st phone).2
  | upd (st : Mgr) (phone : List Char) (nOpt pOpt ntOpt : Option (List Char)) :
      Reachable st → Reachable (update_contact st phone nOpt pOpt ntOpt).2

/-- `_load_snapshot` applied to a fresh manager: absent file leaves the
initial state; otherwise restore `next_id` and the contact list and
rebuild the phone map and both trees from the records. -/
def loadSnap (snap : Option (Nat × List Contact)) (lines : List WalLine) : Mgr :=
  match snap with
  | none => { Mgr.empty with wal := lines }
  | some (nid, cs) =>
    { contacts := cs,
      next_id := nid,
      phone_index := cs.foldl (fun a c => setA a c.phone c.id) [],
      name_trie := cs.foldl (fun t c => insT t c.name c.id) (.node [] []),
      phone_trie := cs.foldl (fun t c => insT t c.phone c.id) (.node [] []),
      wal := lines,
      snapshot := some (nid, cs) }

/-- `_apply_add_replay`: append the logged contact unconditionally, bind
its phone, insert into both trees, and advance `next_id` past its id. -/
def applyAddReplay (st : Mgr) (cid : Nat) (name phone note : List Char) : Mgr :=
  let c : Contact := { id := cid, name := name, phone := phone, note := note }
  { st with
    contacts := st.contacts ++ [c],
    phone_index := setA st.phone_index phone cid,
    name_trie := insT st.name_trie name cid,
    phone_trie := insT st.phone_trie phone cid,
    next_id := max st.next_id (cid + 1) }

/-- One replayed entry (`_apply_add_replay` / `_apply_delete_replay` /
`_apply_update_replay`; the latter two coincide with the live in-memory
application). -/
def applyEntry (st : Mgr) : Entry → Mgr
  | .add cid name phone note => applyAddReplay st cid name phone note
  | .del cid => applyDelete st cid
  | .upd cid nOpt pOpt ntOpt => applyUpdate st cid nOpt pOpt ntOpt

/-- The loop of `_replay_wal`: `json.loads` on a malformed line raises,
aborting startup (`none`); after at least one applied entry a fresh
snapshot is written and the WAL truncated. -/
def replayGo : Mgr → List WalLine → Bool → Option Mgr
  | st, [], applied => some (if applied then write_snapshot st else st)
  | _, none :: _, _ => none
  | st, some e :: rest, _ => replayGo (applyEntry st e) rest true

/-- `ContactManager.__init__` on a directory whose snapshot file holds
`snap` and whose WAL file holds `lines`: load the snapshot, then replay
the WAL.  `none` means startup raised. -/
def startup (snap : Option (Nat × List Contact)) (lines : List WalLine) : Option Mgr :=
  replayGo (loadSnap snap lines) lines false

/-! ### Concrete scenario states -/

/-- Characters of the name "Alice". -/
def nmA : List Char := ['A', 'l', 'i', 'c', 'e']

/-- Characters of the name "Bob". -/
def nmB : List Char := ['B', 'o', 'b']

/-- Characters of the phone "111". -/
def ph1 : List Char := ['1', '1', '1']

/-- Characters of the phone "222". -/
def ph2 : List Char := ['2', '2', '2']

/-- Characters of the note "work". -/
def wrk : List Char := ['w', 'o', 'r', 'k']

/-- The store after `add("Alice", "111", "")`. -/
def stA : Mgr := (add_contact Mgr.empty nmA ph1 []).2

/-- `stA` after `add("Alice", "222", "work")`. -/
def stA2 : Mgr := (add_contact stA nmA ph2 wrk).2

/-- `stA` after `add("Bob", "222", "")`. -/
def stAB : Mgr := (add_contact stA nmB ph2 []).2

/-- The store after `add("A", "", "")` — an empty phone is accepted. -/
def stE1 : Mgr := (add_contact Mgr.empty ['A'] [] []).2

/-- `stE1` after `add("B", "1", "")`. -/
def stE2 : Mgr := (add_contact stE1 ['B'] ['1'] []).2

/-- `stE2` after `update_contact("1", new_phone="")`: the empty new phone
is falsy, so the duplicate check is skipped. -/
def stE3 : Mgr := (update_contact stE2 ['1'] none (some []) none).2

/-- `stE3` after `update_contact("", new_phone="Y")`: contact 2 moves off
the empty phone, leaving contact 1's empty phone unindexed. -/
def stE4 : Mgr := (update_contact stE3 [] none (some ['Y']) none).2

/-! ### Association-list lemmas -/

theorem getA_setA_self {κ α : Type} [DecidableEq κ] (l : List (κ × α)) (k : κ) (v : α) :
    getA (setA l k v) k = some v := by
  induction l with
  | nil => simp [setA, getA]
  | cons e rest ih =>
    obtain ⟨k', v'⟩ := e
    by_cases h : k' = k
    · simp [setA, h, getA]
    · simp [setA, h, getA, ih]

theorem getA_setA_ne {κ α : Type} [DecidableEq κ] (l : List (κ × α)) (k k' : κ) (v : α)
    (h : k' ≠ k) : getA (setA l k v) k' = getA l k' := by
  have hk : k ≠ k' := Ne.symm h
  induction l with
  | nil => simp [setA, getA, hk]
  | cons e rest ih =>
    obtain ⟨k₀, v₀⟩ := e
    by_cases h0 : k₀ = k
    · subst h0
      simp [setA, getA, hk]
    · simp [setA, getA, h0, ih]

theorem getA_delA_self {κ α : Type} [DecidableEq κ] (l : List (κ × α)) (k : κ) :
    getA (delA l k) k = none := by
  induction l with
  | nil => rfl
  | cons e rest ih =>
    obtain ⟨k₀, v₀⟩ := e
    by_cases h0 : k₀ = k
    · simpa [delA, List.filter_cons, h0] using ih
    · simpa [delA, List.filter_cons, h0, getA] using ih

theorem getA_delA_ne {κ α : Type} [DecidableEq κ] (l : List (κ × α)) (k k' : κ)
    (h : k' ≠ k) : getA (delA l k) k' = getA l k' := by
  induction l with
  | nil => rfl
  | cons e rest ih =>
    obtain ⟨k₀, v₀⟩ := e
    by_cases h0 : k₀ = k
    · subst h0
      have hk : ¬(k₀ = k') := fun he => h he.symm
      simpa [delA, List.filter_cons, getA, hk] using ih
    · by_cases h1 : k₀ = k'
      · subst h1
        simp [delA, List.filter_cons, h0, getA]
      · simpa [delA, List.filter_cons, h0, getA, h1] using ih

theorem mem_addId (l : List Nat) (i j : Nat) : i ∈ addId l j ↔ i ∈ l ∨ i = j := by
  by_cases h : j ∈ l
  · simp only [addId, if_pos h]
    exact ⟨Or.inl, fun hc => hc.elim id (fun he => he ▸ h)⟩
  · simp [addId, if_neg h]

/-! ### Tree equation lemmas -/

theorem searchT_nil (t : TrieNode) : searchT t [] = t.ids := by
  cases t; rfl

theorem searchT_consN {ch : List (Char × TrieNode)} {ids : List Nat} {a : Char}
    {p : List Char} (h : getA ch a = none) : searchT (.node ch ids) (a :: p) = [] := by
  simp [searchT, h]

theorem searchT_consE {ch : List (Char × TrieNode)} {ids : List Nat} {a : Char}
    {p : List Char} {c : TrieNode} (h : getA ch a = some c) :
    searchT (.node ch ids) (a :: p) = searchT c p := by
  simp [searchT, h]

theorem searchT_ids_irrel (ch : List (Char × TrieNode)) (i1 i2 : List Nat) (a : Char)
    (p : List Char) : searchT (.node ch i1) (a :: p) = searchT (.node ch i2) (a :: p) := rfl

theorem pathEx_consN {ch : List (Char × TrieNode)} {ids : List Nat} {a : Char}
    {k : List Char} (h : getA ch a = none) : pathEx (.node ch ids) (a :: k) = false := by
  simp [pathEx, h]

theorem pathEx_consE {ch : List (Char × TrieNode)} {ids : List Nat} {a : Char}
    {k : List Char} {c : TrieNode} (h : getA ch a = some c) :
    pathEx (.node ch ids) (a :: k) = pathEx c k := by
  simp [pathEx, h]

theorem pathEx_ids_irrel (ch : List (Char × TrieNode)) (i1 i2 : List Nat) (k : List Char) :
    pathEx (.node ch i1) k = pathEx (.node ch i2) k := by
  cases k <;> rfl

theorem insT_nil (t : TrieNode) (cid : Nat) : insT t [] cid = t := by
  cases t; rfl

theorem insT_cons (ch : List (Char × TrieNode)) (ids : List Nat) (a : Char)
    (rest : List Char) (cid : Nat) :
    insT (.node ch ids) (a :: rest) cid =
      .node (setA ch a (insT (bump (getA ch a) cid) rest cid)) ids := rfl

theorem bump_none (cid : Nat) : bump none cid = .node [] [cid] := by
  simp [bump, addId]

theorem bump_some (cch : List (Char × TrieNode)) (cids : List Nat) (cid : Nat) :
    bump (some (.node cch cids)) cid = .node cch (addId cids cid) := rfl

theorem ids_insT (t : TrieNode) (k : List Char) (cid : Nat) : (insT t k cid).ids = t.ids := by
  cases k with
  | nil => rw [insT_nil]
  | cons a rest => cases t; rfl

theorem remGo_nil (t : TrieNode) (cid : Nat) : remGo t [] cid = t := by
  cases t; rfl

theorem remGo_consN {ch : List (Char × TrieNode)} {ids : List Nat} {a : Char}
    {rest : List Char} {cid : Nat} (h : getA ch a = none) :
    remGo (.node ch ids) (a :: rest) cid = .node ch ids := by
  simp [remGo, h]

theorem remGo_consP {ch : List (Char × TrieNode)} {ids : List Nat} {a : Char}
    {rest : List Char} {cid : Nat} {cch : List (Char × TrieNode)} {cids : List Nat}
    (h : getA ch a = some (.node cch cids))
    (h1 : cids.filter (fun i => i ≠ cid) = []) (h2 : cch = []) :
    remGo (.node ch ids) (a :: rest) cid = .node (delA ch a) ids := by
  have hb : (((cids.filter (fun i => i ≠ cid)).isEmpty && cch.isEmpty) = true) := by
    simp only [Bool.and_eq_true, List.isEmpty_eq_true]
    exact ⟨h1, h2⟩
  simp only [remGo, h, TrieNode.ids, TrieNode.children]
  rw [if_pos hb]

theorem remGo_consK {ch : List (Char × TrieNode)} {ids : List Nat} {a : Char}
    {rest : List Char} {cid : Nat} {cch : List (Char × TrieNode)} {cids : List Nat}
    (h : getA ch a = some (.node cch cids))
    (hk : ¬(cids.filter (fun i => i ≠ cid) = [] ∧ cch = [])) :
    remGo (.node ch ids) (a :: rest) cid =
      .node (setA ch a (remGo (.node cch (cids.filter (fun i => i ≠ cid))) rest cid)) ids := by
  have hb : ¬(((cids.filter (fun i => i ≠ cid)).isEmpty && cch.isEmpty) = true) := by
    simp only [Bool.and_eq_true, List.isEmpty_eq_true]
    exact hk
  simp only [remGo, h, TrieNode.ids, TrieNode.children]
  rw [if_neg hb]

/-! ### Lookup-level effect of insertion and removal -/

/-- Effect of `Trie.insert` on every lookup: `cid` appears at exactly the
nonempty paths that spell out a prefix of `key`; everything else is
unchanged. -/
theorem mem_searchT_insT :
    ∀ (p : List Char) (t : TrieNode) (k : List Char) (cid i : Nat),
    i ∈ searchT (insT t k cid) p ↔ i ∈ searchT t p ∨ (i = cid ∧ p ≠ [] ∧ p <+: k) := by
  intro p
  induction p with
  | nil =>
    intro t k cid i
    simp [searchT_nil, ids_insT]
  | cons b p' ih =>
    intro t k cid i
    cases k with
    | nil => simp [insT_nil, List.prefix_nil]
    | cons a k' =>
      cases t with
      | node ch ids =>
        rw [insT_cons]
        by_cases hba : b = a
        · subst hba
          rw [searchT_consE (getA_setA_self ch b (insT (bump (getA ch b) cid) k' cid)), ih]
          cases hg : getA ch b with
          | none =>
            rw [searchT_consN hg, bump_none]
            cases p' with
            | nil => simp [searchT_nil, TrieNode.ids, List.cons_prefix_cons]
            | cons c r =>
              rw [searchT_consN (show getA ([] : List (Char × TrieNode)) c = none from rfl)]
              simp [List.cons_prefix_cons]
          | some child =>
            cases child with
            | node cch cids =>
              rw [searchT_consE hg, bump_some]
              cases p' with
              | nil =>
                simp only [searchT_nil, TrieNode.ids, mem_addId, List.cons_prefix_cons,
                  ne_eq, reduceCtorEq, not_false_iff, true_and, List.nil_prefix, and_true]
                tauto
              | cons c r =>
                rw [searchT_ids_irrel cch (addId cids cid) cids c r]
                simp [List.cons_prefix_cons]
        · have hgab := getA_setA_ne ch a b (insT (bump (getA ch a) cid) k' cid) hba
          cases hg : getA ch b with
          | none =>
            rw [searchT_consN (hgab.trans hg), searchT_consN hg]
            simp [List.cons_prefix_cons, hba]
          | some c0 =>
            rw [searchT_consE (hgab.trans hg), searchT_consE hg]
            simp [List.cons_prefix_cons, hba]

theorem pathEx_of_mem_searchT :
    ∀ (p : List Char) (t : TrieNode) (i : Nat), i ∈ searchT t p → pathEx t p = true := by
  intro p
  induction p with
  | nil => intro t i _; cases t; rfl
  | cons a p' ih =>
    intro t i h
    cases t with
    | node ch ids =>
      cases hg : getA ch a with
      | none => rw [searchT_consN hg] at h; simp at h
      | some child =>
        rw [searchT_consE hg] at h
        rw [pathEx_consE hg]
        exact ih child i h

/-- Effect of the discard-and-prune pass of `Trie.remove` on every lookup,
assuming the full path of `key` exists: `cid` disappears from exactly the
nonempty paths spelling a prefix of `key`; all other ids are kept. -/
theorem mem_searchT_remGo :
    ∀ (k : List Char) (t : TrieNode) (cid : Nat) (p : List Char) (i : Nat),
    pathEx t k = true →
    (i ∈ searchT (remGo t k cid) p ↔
      i ∈ searchT t p ∧ ¬(i = cid ∧ p ≠ [] ∧ p <+: k)) := by
  intro k
  induction k with
  | nil =>
    intro t cid p i _
    rw [remGo_nil]
    simp only [List.prefix_nil]
    exact ⟨fun h => ⟨h, fun hc => hc.2.1 hc.2.2⟩, fun h => h.1⟩
  | cons a k' ih =>
    intro t cid p i hpx
    cases t with
    | node ch ids =>
      cases hg : getA ch a with
      | none =>
        rw [pathEx_consN hg] at hpx
        exact absurd hpx (by simp)
      | some child =>
        have hpx' : pathEx child k' = true := by rwa [pathEx_consE hg] at hpx
        cases child with
        | node cch cids =>
          by_cases hprune : cids.filter (fun i => i ≠ cid) = [] ∧ cch = []
          · rw [remGo_consP hg hprune.1 hprune.2]
            have hall : ∀ x ∈ cids, x = cid := by
              simpa using List.filter_eq_nil_iff.mp hprune.1
            cases p with
            | nil => simp [searchT_nil, TrieNode.ids]
            | cons b p' =>
              by_cases hba : b = a
              · subst hba
                rw [searchT_consN (getA_delA_self ch b), searchT_consE hg]
                constructor
                · intro h; simp at h
                · rintro ⟨h1, h2⟩
                  exfalso
                  cases p' with
                  | nil =>
                    rw [searchT_nil] at h1
                    simp only [TrieNode.ids] at h1
                    exact h2 ⟨hall i h1, by simp,
                      List.cons_prefix_cons.mpr ⟨rfl, List.nil_prefix⟩⟩
                  | cons c r =>
                    rw [hprune.2] at h1
                    rw [searchT_consN
                      (show getA ([] : List (Char × TrieNode)) c = none from rfl)] at h1
                    simp at h1
              · have hd := getA_delA_ne ch a b hba
                cases hgb : getA ch b with
                | none => rw [searchT_consN (hd.trans hgb), searchT_consN hgb]; simp
                | some c0 =>
                  rw [searchT_consE (hd.trans hgb), searchT_consE hgb]
                  simp [List.cons_prefix_cons, hba]
          · rw [remGo_consK hg hprune]
            cases p with
            | nil => simp [searchT_nil, TrieNode.ids]
            | cons b p' =>
              by_cases hba : b = a
              · subst hba
                rw [searchT_consE (getA_setA_self ch b _), searchT_consE hg]
                have hpx'' :
                    pathEx (.node cch (cids.filter (fun i => i ≠ cid))) k' = true := by
                  rw [pathEx_ids_irrel cch _ cids]
                  exact hpx'
                rw [ih _ cid p' i hpx'']
                cases p' with
                | nil =>
                  rw [searchT_nil, searchT_nil]
                  simp only [TrieNode.ids, List.mem_filter, List.cons_prefix_cons,
                    ne_eq, decide_not, Bool.not_eq_eq_eq_not, Bool.not_true,
                    decide_eq_false_iff_not, List.nil_prefix, and_true, true_and,
                    reduceCtorEq, not_false_iff]
                  constructor
                  · rintro ⟨⟨h1, h2⟩, _⟩
                    exact ⟨h1, fun hc => h2 hc⟩
                  · rintro ⟨h1, h2⟩
                    exact ⟨⟨h1, fun hc => h2 hc⟩, fun hc => h2 hc.1⟩
                | cons c r =>
                  rw [searchT_ids_irrel cch _ cids]
                  simp [List.cons_prefix_cons]
              · have hs := getA_setA_ne ch a b
                  (remGo (.node cch (cids.filter (fun i => i ≠ cid))) k' cid) hba
                cases hgb : getA ch b with
                | none => rw [searchT_consN (hs.trans hgb), searchT_consN hgb]; simp
                | some c0 =>
                  rw [searchT_consE (hs.trans hgb), searchT_consE hgb]
                  simp [List.cons_prefix_cons, hba]

/-- `Trie.remove` on a key whose path is incomplete is a no-op. -/
theorem remT_of_pathEx_false (t : TrieNode) (k : List Char) (cid : Nat)
    (h : pathEx t k = false) : remT t k cid = t := by
  simp [remT, h]

/-- `Trie.remove` on a key whose path exists: the lookup-level effect. -/
theorem mem_searchT_remT (t : TrieNode) (k : List Char) (cid : Nat) (p : List Char) (i : Nat)
    (h : pathEx t k = true) :
    i ∈ searchT (remT t k cid) p ↔
      i ∈ searchT t p ∧ ¬(i = cid ∧ p ≠ [] ∧ p <+: k) := by
  rw [remT, if_pos h]
  exact mem_searchT_remGo k t cid p i h
/-! ### Sorting lemmas -/

theorem sortNats_cons (c : Nat) (r : List Nat) :
    sortNats (c :: r) = insSorted c (sortNats r) := rfl

theorem mem_insSorted (i j : Nat) (l : List Nat) : i ∈ insSorted j l ↔ i = j ∨ i ∈ l := by
  induction l with
  | nil => simp [insSorted]
  | cons c r ih =>
    by_cases h : j ≤ c
    · simp [insSorted, h]
    · simp only [insSorted, if_neg h, List.mem_cons, ih]
      tauto

theorem mem_sortNats (i : Nat) (l : List Nat) : i ∈ sortNats l ↔ i ∈ l := by
  induction l with
  | nil => simp [sortNats]
  | cons c r ih =>
    rw [sortNats_cons]
    simp [mem_insSorted, ih]

theorem sorted_insSorted (j : Nat) (l : List Nat) (h : l.Pairwise (· ≤ ·)) :
    (insSorted j l).Pairwise (· ≤ ·) := by
  induction l with
  | nil => simp [insSorted]
  | cons c r ih =>
    rw [List.pairwise_cons] at h
    by_cases hj : j ≤ c
    · simp only [insSorted, if_pos hj]
      refine List.pairwise_cons.mpr ⟨?_, List.pairwise_cons.mpr ⟨h.1, h.2⟩⟩
      intro b hb
      rcases List.mem_cons.mp hb with rfl | hb'
      · exact hj
      · exact le_trans hj (h.1 b hb')
    · simp only [insSorted, if_neg hj]
      refine List.pairwise_cons.mpr ⟨?_, ih h.2⟩
      intro b hb
      rcases (mem_insSorted b j r).mp hb with rfl | hbr
      · exact le_of_not_le hj
      · exact h.1 b hbr

theorem sorted_sortNats (l : List Nat) : (sortNats l).Pairwise (· ≤ ·) := by
  induction l with
  | nil => simp [sortNats]
  | cons c r ih =>
    rw [sortNats_cons]
    exact sorted_insSorted c _ ih

theorem map_id_filterMap_sublist (l : List Nat) (f : Nat → Option Contact)
    (hf : ∀ i c, f i = some c → c.id = i) :
    ((l.filterMap f).map Contact.id).Sublist l := by
  induction l with
  | nil => simp
  | cons a r ih =>
    cases hfa : f a with
    | none =>
      rw [List.filterMap_cons_none hfa]
      exact ih.cons a
    | some c =>
      rw [List.filterMap_cons_some hfa, List.map_cons, hf a c hfa]
      exact ih.cons₂ a

/-! ### Id-dict lemmas -/

theorem idDict_id (cs : List Contact) (i : Nat) (c : Contact) (h : idDict cs i = some c) :
    c.id = i := by
  have := List.find?_some h
  simpa using this

theorem idDict_mem (cs : List Contact) (i : Nat) (c : Contact) (h : idDict cs i = some c) :
    c ∈ cs :=
  List.mem_reverse.mp (List.mem_of_find?_eq_some h)

theorem idDict_of_mem (cs : List Contact) (c : Contact)
    (hnd : cs.Pairwise (fun a b => a.id ≠ b.id)) (hc : c ∈ cs) :
    idDict cs c.id = some c := by
  cases hfind : idDict cs c.id with
  | none =>
    exfalso
    rw [idDict, List.find?_eq_none] at hfind
    exact hfind c (List.mem_reverse.mpr hc) (by simp)
  | some d =>
    have hd : d.id = c.id := idDict_id cs c.id d hfind
    have hdm : d ∈ cs := idDict_mem cs c.id d hfind
    have hdc : d = c := by
      by_contra hne
      have hsym : Symmetric (fun a b : Contact => a.id ≠ b.id) := fun a b hab => hab.symm
      exact hnd.forall hsym hdm hc hne hd
    rw [hdc]

/-! ### Decomposition lemmas for the first-match loops -/

theorem findC_append (pre : List Contact) (c0 : Contact) (post : List Contact) (cid : Nat)
    (hpre : ∀ c ∈ pre, c.id ≠ cid) (hc0 : c0.id = cid) :
    findC (pre ++ c0 :: post) cid = some c0 := by
  induction pre with
  | nil => simp [findC, hc0]
  | cons d rest ih =>
    have hd : (d.id == cid) = false := by simpa using hpre d (by simp)
    have ih' := ih (fun c hc => hpre c (by simp [hc]))
    simpa [findC, List.find?_cons, hd] using ih'

theorem removeFirst_append (pre : List Contact) (c0 : Contact) (post : List Contact)
    (cid : Nat) (hpre : ∀ c ∈ pre, c.id ≠ cid) (hc0 : c0.id = cid) :
    removeFirst (pre ++ c0 :: post) cid = pre ++ post := by
  induction pre with
  | nil => simp [removeFirst, hc0]
  | cons d rest ih =>
    have hd : d.id ≠ cid := hpre d (by simp)
    simp only [List.cons_append, removeFirst, if_neg hd, List.append_eq]
    rw [ih (fun c hc => hpre c (by simp [hc]))]

theorem replaceFirst_append (pre : List Contact) (c0 : Contact) (post : List Contact)
    (cid : Nat) (c1 : Contact) (hpre : ∀ c ∈ pre, c.id ≠ cid) (hc0 : c0.id = cid) :
    replaceFirst (pre ++ c0 :: post) cid c1 = pre ++ c1 :: post := by
  induction pre with
  | nil => simp [replaceFirst, hc0]
  | cons d rest ih =>
    have hd : d.id ≠ cid := hpre d (by simp)
    simp only [List.cons_append, replaceFirst, if_neg hd, List.append_eq]
    rw [ih (fun c hc => hpre c (by simp [hc]))]

theorem exists_decomp (cs : List Contact) (cid : Nat) (c0 : Contact)
    (hnd : cs.Pairwise (fun a b => a.id < b.id)) (hc0 : c0 ∈ cs) (hid : c0.id = cid) :
    ∃ pre post, cs = pre ++ c0 :: post ∧
      (∀ c ∈ pre, c.id ≠ cid) ∧ (∀ c ∈ post, c.id ≠ cid) := by
  obtain ⟨pre, post, rfl⟩ := List.append_of_mem hc0
  rw [List.pairwise_append] at hnd
  refine ⟨pre, post, rfl, ?_, ?_⟩
  · intro c hc
    have := hnd.2.2 c hc c0 (by simp)
    omega
  · intro c hc
    have := (List.pairwise_cons.mp hnd.2.1).1 c hc
    omega

theorem exists_mem_replace {α : Type} (pre post : List α) (x y : α) (P : α → Prop)
    (h : P x ↔ P y) :
    (∃ c ∈ pre ++ x :: post, P c) ↔ ∃ c ∈ pre ++ y :: post, P c := by
  simp only [List.mem_append, List.mem_cons]
  constructor
  · rintro ⟨c, (hm | rfl | hm), hP⟩
    · exact ⟨c, Or.inl hm, hP⟩
    · exact ⟨y, Or.inr (Or.inl rfl), h.mp hP⟩
    · exact ⟨c, Or.inr (Or.inr hm), hP⟩
  · rintro ⟨c, (hm | rfl | hm), hP⟩
    · exact ⟨c, Or.inl hm, hP⟩
    · exact ⟨x, Or.inr (Or.inl rfl), h.mpr hP⟩
    · exact ⟨c, Or.inr (Or.inr hm), hP⟩

/-! ### The reachable-state invariant -/

/-- Invariant of reachable manager states: contacts are strictly sorted by
id, ids are below `next_id`, both trees answer exactly the live prefix
queries, every phone-map binding is backed by a live contact, and the two
files are quiescent (empty WAL, snapshot equal to the in-memory state). -/
structure StInv (st : Mgr) : Prop where
  sorted : st.contacts.Pairwise (fun a b => a.id < b.id)
  bound : ∀ c ∈ st.contacts, c.id < st.next_id
  nameT : ∀ (p : List Char) (i : Nat),
    i ∈ searchT st.name_trie p ↔ p ≠ [] ∧ ∃ c ∈ st.contacts, c.id = i ∧ p <+: c.name
  phoneT : ∀ (p : List Char) (i : Nat),
    i ∈ searchT st.phone_trie p ↔ p ≠ [] ∧ ∃ c ∈ st.contacts, c.id = i ∧ p <+: c.phone
  idxS : ∀ (ph : List Char) (i : Nat), getA st.phone_index ph = some i →
    ∃ c ∈ st.contacts, c.id = i ∧ c.phone = ph
  walE : st.wal = []
  snapE : ∀ s, st.snapshot = some s → s = (st.next_id, st.contacts)
  snapN : st.snapshot = none → st.contacts = [] ∧ st.next_id = 1

theorem StInv.nodup {st : Mgr} (hI : StInv st) :
    st.contacts.Pairwise (fun a b => a.id ≠ b.id) :=
  hI.sorted.imp (fun h => ne_of_lt h)

theorem searchT_empty_node (p : List Char) : searchT (.node [] []) p = [] := by
  cases p <;> rfl

theorem pathEx_nil (t : TrieNode) : pathEx t [] = true := by
  cases t; rfl

theorem inv_empty : StInv Mgr.empty := by
  refine ⟨?_, ?_, ?_, ?_, ?_, rfl, ?_, ?_⟩
  · simp [Mgr.empty]
  · simp [Mgr.empty]
  · intro p i
    simp [Mgr.empty, searchT_empty_node]
  · intro p i
    simp [Mgr.empty, searchT_empty_node]
  · intro ph i h
    simp [Mgr.empty, getA] at h
  · intro s hs
    simp [Mgr.empty] at hs
  · intro _
    exact ⟨rfl, rfl⟩

theorem inv_add (st : Mgr) (hI : StInv st) (name phone note : List Char) :
    StInv (add_contact st name phone note).2 := by
  by_cases hdup : (getA st.phone_index phone).isSome
  · simpa [add_contact, hdup] using hI
  · have hfresh : ∀ c ∈ st.contacts, c.id < st.next_id := hI.bound
    have hst : (add_contact st name phone note).2 =
        { contacts := st.contacts ++ [Contact.mk st.next_id name phone note],
          phone_index := setA st.phone_index phone st.next_id,
          name_trie := insT st.name_trie name st.next_id,
          phone_trie := insT st.phone_trie phone st.next_id,
          next_id := st.next_id + 1,
          wal := [],
          snapshot :=
            some (st.next_id + 1, st.contacts ++ [Contact.mk st.next_id name phone note]) } := by
      simp [add_contact, hdup, appendWal, write_snapshot]
    rw [hst]
    refine ⟨?_, ?_, ?_, ?_, ?_, rfl, ?_, ?_⟩
    · show (st.contacts ++ [Contact.mk st.next_id name phone note]).Pairwise
        (fun a b => a.id < b.id)
      rw [List.pairwise_append]
      refine ⟨hI.sorted, by simp, ?_⟩
      intro x hx y hy
      simp only [List.mem_singleton] at hy
      subst hy
      exact hfresh x hx
    · show ∀ c ∈ st.contacts ++ [Contact.mk st.next_id name phone note], c.id < st.next_id + 1
      intro c hc
      rcases List.mem_append.mp hc with h | h
      · exact lt_trans (hfresh c h) (Nat.lt_succ_self _)
      · simp only [List.mem_singleton] at h
        subst h
        exact Nat.lt_succ_self _
    · show ∀ (p : List Char) (i : Nat),
        i ∈ searchT (insT st.name_trie name st.next_id) p ↔
          p ≠ [] ∧ ∃ c ∈ st.contacts ++ [Contact.mk st.next_id name phone note],
            c.id = i ∧ p <+: c.name
      intro p i
      rw [mem_searchT_insT p st.name_trie name st.next_id i, hI.nameT]
      constructor
      · rintro (⟨hp, c, hcm, hci, hpre⟩ | ⟨hicid, hp, hpre⟩)
        · exact ⟨hp, c, List.mem_append.mpr (Or.inl hcm), hci, hpre⟩
        · exact ⟨hp, Contact.mk st.next_id name phone note,
            List.mem_append.mpr (Or.inr (by simp)), by simp [hicid], hpre⟩
      · rintro ⟨hp, c, hcm, hci, hpre⟩
        rcases List.mem_append.mp hcm with h | h
        · exact Or.inl ⟨hp, c, h, hci, hpre⟩
        · simp only [List.mem_singleton] at h
          subst h
          right
          exact ⟨hci.symm, hp, hpre⟩
    · show ∀ (p : List Char) (i : Nat),
        i ∈ searchT (insT st.phone_trie phone st.next_id) p ↔
          p ≠ [] ∧ ∃ c ∈ st.contacts ++ [Contact.mk st.next_id name phone note],
            c.id = i ∧ p <+: c.phone
      intro p i
      rw [mem_searchT_insT p st.phone_trie phone st.next_id i, hI.phoneT]
      constructor
      · rintro (⟨hp, c, hcm, hci, hpre⟩ | ⟨hicid, hp, hpre⟩)
        · exact ⟨hp, c, List.mem_append.mpr (Or.inl hcm), hci, hpre⟩
        · exact ⟨hp, Contact.mk st.next_id name phone note,
            List.mem_append.mpr (Or.inr (by simp)), by simp [hicid], hpre⟩
      · rintro ⟨hp, c, hcm, hci, hpre⟩
        rcases List.mem_append.mp hcm with h | h
        · exact Or.inl ⟨hp, c, h, hci, hpre⟩
        · simp only [List.mem_singleton] at h
          subst h
          right
          exact ⟨hci.symm, hp, hpre⟩
    · show ∀ (ph : List Char) (i : Nat),
        getA (setA st.phone_index phone st.next_id) ph = some i →
          ∃ c ∈ st.contacts ++ [Contact.mk st.next_id name phone note], c.id = i ∧ c.phone = ph
      intro ph i hget
      by_cases hph : ph = phone
      · subst hph
        rw [getA_setA_self] at hget
        injection hget with h
        exact ⟨Contact.mk st.next_id name ph note, List.mem_append.mpr (Or.inr (by simp)), h, rfl⟩
      · rw [getA_setA_ne _ _ _ _ hph] at hget
        obtain ⟨c, hcm, hci, hcp⟩ := hI.idxS ph i hget
        exact ⟨c, List.mem_append.mpr (Or.inl hcm), hci, hcp⟩
    · intro s hs
      injection hs with h
      exact h.symm
    · intro h
      exact absurd h (by simp)
theorem pathEx_of_key (tn : TrieNode) {cs : List Contact} (f : Contact → List Char)
    (hT : ∀ p i, i ∈ searchT tn p ↔ p ≠ [] ∧ ∃ c ∈ cs, c.id = i ∧ p <+: f c)
    (c0 : Contact) (hc0 : c0 ∈ cs) : pathEx tn (f c0) = true := by
  cases hfe : f c0 with
  | nil => exact pathEx_nil tn
  | cons a r =>
    apply pathEx_of_mem_searchT (a :: r) tn c0.id
    rw [hT]
    exact ⟨by simp, c0, hc0, rfl, by rw [hfe]⟩

theorem searchT_inv_delete (tn : TrieNode) (pre post : List Contact) (c0 : Contact)
    (cid : Nat) (f : Contact → List Char)
    (hT : ∀ p i, i ∈ searchT tn p ↔
      p ≠ [] ∧ ∃ c ∈ pre ++ c0 :: post, c.id = i ∧ p <+: f c)
    (hpre : ∀ c ∈ pre, c.id ≠ cid) (hpost : ∀ c ∈ post, c.id ≠ cid) (hc0 : c0.id = cid) :
    ∀ p i, i ∈ searchT (remT tn (f c0) cid) p ↔
      p ≠ [] ∧ ∃ c ∈ pre ++ post, c.id = i ∧ p <+: f c := by
  have hpx : pathEx tn (f c0) = true := pathEx_of_key tn f hT c0 (by simp)
  intro p i
  rw [mem_searchT_remT tn (f c0) cid p i hpx, hT]
  constructor
  · rintro ⟨⟨hp, c, hcm, hci, hpref⟩, hneg⟩
    refine ⟨hp, c, ?_, hci, hpref⟩
    rcases List.mem_append.mp hcm with h | h
    · exact List.mem_append.mpr (Or.inl h)
    · rcases List.mem_cons.mp h with rfl | h
      · exact absurd ⟨hci ▸ hc0, hp, hpref⟩ hneg
      · exact List.mem_append.mpr (Or.inr h)
  · rintro ⟨hp, c, hcm, hci, hpref⟩
    have hcid : c.id ≠ cid := by
      rcases List.mem_append.mp hcm with h | h
      · exact hpre c h
      · exact hpost c h
    have hcm' : c ∈ pre ++ c0 :: post := by
      rcases List.mem_append.mp hcm with h | h
      · exact List.mem_append.mpr (Or.inl h)
      · exact List.mem_append.mpr (Or.inr (List.mem_cons_of_mem _ h))
    refine ⟨⟨hp, c, hcm', hci, hpref⟩, ?_⟩
    intro hc
    exact hcid (hci.trans hc.1)

theorem searchT_inv_same (tn : TrieNode) (pre post : List Contact) (c0 c1 : Contact)
    (f : Contact → List Char)
    (hT : ∀ p i, i ∈ searchT tn p ↔
      p ≠ [] ∧ ∃ c ∈ pre ++ c0 :: post, c.id = i ∧ p <+: f c)
    (hid : c1.id = c0.id) (hfs : f c1 = f c0) :
    ∀ p i, i ∈ searchT tn p ↔
      p ≠ [] ∧ ∃ c ∈ pre ++ c1 :: post, c.id = i ∧ p <+: f c := by
  intro p i
  rw [hT]
  apply and_congr_right
  intro _
  exact exists_mem_replace pre post c0 c1 _ (by rw [hid, hfs])

theorem searchT_inv_update (tn : TrieNode) (pre post : List Contact) (c0 : Contact)
    (cid : Nat) (n : List Char) (f : Contact → List Char)
    (hT : ∀ p i, i ∈ searchT tn p ↔
      p ≠ [] ∧ ∃ c ∈ pre ++ c0 :: post, c.id = i ∧ p <+: f c)
    (hpre : ∀ c ∈ pre, c.id ≠ cid) (hpost : ∀ c ∈ post, c.id ≠ cid) (hc0 : c0.id = cid)
    (c1 : Contact) (hc1 : c1.id = cid) (hf1 : f c1 = n) :
    ∀ p i, i ∈ searchT (insT (remT tn (f c0) cid) n cid) p ↔
      p ≠ [] ∧ ∃ c ∈ pre ++ c1 :: post, c.id = i ∧ p <+: f c := by
  have hpx : pathEx tn (f c0) = true := pathEx_of_key tn f hT c0 (by simp)
  intro p i
  rw [mem_searchT_insT p _ n cid i, mem_searchT_remT tn (f c0) cid p i hpx, hT]
  constructor
  · rintro (⟨⟨hp, c, hcm, hci, hpref⟩, hneg⟩ | ⟨hicid, hp, hpref⟩)
    · refine ⟨hp, c, ?_, hci, hpref⟩
      rcases List.mem_append.mp hcm with h | h
      · exact List.mem_append.mpr (Or.inl h)
      · rcases List.mem_cons.mp h with rfl | h
        · exact absurd ⟨hci ▸ hc0, hp, hpref⟩ hneg
        · exact List.mem_append.mpr (Or.inr (List.mem_cons_of_mem _ h))
    · refine ⟨hp, c1, List.mem_append.mpr (Or.inr (List.mem_cons_self _ _)), ?_, ?_⟩
      · rw [hc1, hicid]
      · rw [hf1]
        exact hpref
  · rintro ⟨hp, c, hcm, hci, hpref⟩
    rcases List.mem_append.mp hcm with h | h
    · exact Or.inl ⟨⟨hp, c, List.mem_append.mpr (Or.inl h), hci, hpref⟩,
        fun hc => hpre c h (hci.trans hc.1)⟩
    · rcases List.mem_cons.mp h with rfl | h
      · exact Or.inr ⟨hci ▸ hc1, hp, hf1 ▸ hpref⟩
      · exact Or.inl ⟨⟨hp, c, List.mem_append.mpr (Or.inr (List.mem_cons_of_mem _ h)),
          hci, hpref⟩, fun hc => hpost c h (hci.trans hc.1)⟩

theorem inv_del (st : Mgr) (hI : StInv st) (phone : List Char) :
    StInv (delete_contact_by_phone st phone).2 := by
  cases hg : getA st.phone_index phone with
  | none => simpa [delete_contact_by_phone, hg] using hI
  | some cid =>
    obtain ⟨c0, hc0m, hc0id, hc0ph⟩ := hI.idxS phone cid hg
    obtain ⟨pre, post, hdec, hpre, hpost⟩ :=
      exists_decomp st.contacts cid c0 hI.sorted hc0m hc0id
    have hfind : findC (pre ++ c0 :: post) cid = some c0 :=
      findC_append pre c0 post cid hpre hc0id
    have hrem : removeFirst (pre ++ c0 :: post) cid = pre ++ post :=
      removeFirst_append pre c0 post cid hpre hc0id
    have hst : (delete_contact_by_phone st phone).2 =
        { contacts := pre ++ post,
          phone_index := delA st.phone_index c0.phone,
          name_trie := remT st.name_trie c0.name cid,
          phone_trie := remT st.phone_trie c0.phone cid,
          next_id := st.next_id,
          wal := [],
          snapshot := some (st.next_id, pre ++ post) } := by
      simp only [delete_contact_by_phone, hg, appendWal, applyDelete]
      simp only [hdec, hfind, hrem, write_snapshot]
    rw [hst]
    refine ⟨?_, ?_, ?_, ?_, ?_, rfl, ?_, ?_⟩
    · show (pre ++ post).Pairwise (fun a b => a.id < b.id)
      have h := hdec ▸ hI.sorted
      rw [List.pairwise_append] at h ⊢
      exact ⟨h.1, h.2.1.of_cons,
        fun x hx y hy => h.2.2 x hx y (List.mem_cons_of_mem _ hy)⟩
    · show ∀ c ∈ pre ++ post, c.id < st.next_id
      intro c hc
      apply hI.bound
      rw [hdec]
      rcases List.mem_append.mp hc with h | h
      · exact List.mem_append.mpr (Or.inl h)
      · exact List.mem_append.mpr (Or.inr (List.mem_cons_of_mem _ h))
    · show ∀ (p : List Char) (i : Nat),
        i ∈ searchT (remT st.name_trie c0.name cid) p ↔
          p ≠ [] ∧ ∃ c ∈ pre ++ post, c.id = i ∧ p <+: c.name
      exact searchT_inv_delete st.name_trie pre post c0 cid (fun c => c.name)
        (hdec ▸ hI.nameT) hpre hpost hc0id
    · show ∀ (p : List Char) (i : Nat),
        i ∈ searchT (remT st.phone_trie c0.phone cid) p ↔
          p ≠ [] ∧ ∃ c ∈ pre ++ post, c.id = i ∧ p <+: c.phone
      exact searchT_inv_delete st.phone_trie pre post c0 cid (fun c => c.phone)
        (hdec ▸ hI.phoneT) hpre hpost hc0id
    · show ∀ (ph : List Char) (i : Nat),
        getA (delA st.phone_index c0.phone) ph = some i →
          ∃ c ∈ pre ++ post, c.id = i ∧ c.phone = ph
      intro ph i hget
      by_cases hph : ph = c0.phone
      · subst hph
        rw [getA_delA_self] at hget
        exact absurd hget (by simp)
      · rw [getA_delA_ne _ _ _ hph] at hget
        obtain ⟨c, hcm, hci, hcp⟩ := hI.idxS ph i hget
        have hcm' : c ∈ pre ++ c0 :: post := hdec ▸ hcm
        rcases List.mem_append.mp hcm' with h | h
        · exact ⟨c, List.mem_append.mpr (Or.inl h), hci, hcp⟩
        · rcases List.mem_cons.mp h with rfl | h
          · exact absurd hcp.symm hph
          · exact ⟨c, List.mem_append.mpr (Or.inr h), hci, hcp⟩
    · intro s hs
      injection hs with h
      exact h.symm
    · intro h
      exact absurd h (by simp)
theorem inv_upd (st : Mgr) (hI : StInv st) (phone : List Char)
    (nOpt pOpt ntOpt : Option (List Char)) :
    StInv (update_contact st phone nOpt pOpt ntOpt).2 := by
  cases hg : getA st.phone_index phone with
  | none => simpa [update_contact, hg] using hI
  | some cid =>
    by_cases hdup : dupChk st.phone_index phone pOpt = true
    · simpa [update_contact, hg, hdup] using hI
    · obtain ⟨c0, hc0m, hc0id, hc0ph⟩ := hI.idxS phone cid hg
      obtain ⟨pre, post, hdec, hpre, hpost⟩ :=
        exists_decomp st.contacts cid c0 hI.sorted hc0m hc0id
      have hfind : findC (pre ++ c0 :: post) cid = some c0 :=
        findC_append pre c0 post cid hpre hc0id
      have hrep : replaceFirst (pre ++ c0 :: post) cid (updContact c0 nOpt pOpt ntOpt) =
          pre ++ updContact c0 nOpt pOpt ntOpt :: post :=
        replaceFirst_append pre c0 post cid _ hpre hc0id
      have hid1 : (updContact c0 nOpt pOpt ntOpt).id = c0.id := rfl
      have hst : (update_contact st phone nOpt pOpt ntOpt).2 =
          { contacts := pre ++ updContact c0 nOpt pOpt ntOpt :: post,
            phone_index := updIdx st.phone_index c0 cid pOpt,
            name_trie := updNameT st.name_trie c0 cid nOpt,
            phone_trie := updPhoneT st.phone_trie c0 cid pOpt,
            next_id := st.next_id,
            wal := [],
            snapshot := some (st.next_id, pre ++ updContact c0 nOpt pOpt ntOpt :: post) } := by
        simp only [update_contact, hg]
        rw [if_neg hdup]
        simp only [appendWal, applyUpdate]
        simp only [hdec, hfind, hrep, write_snapshot]
      rw [hst]
      refine ⟨?_, ?_, ?_, ?_, ?_, rfl, ?_, ?_⟩
      · show (pre ++ updContact c0 nOpt pOpt ntOpt :: post).Pairwise
          (fun a b => a.id < b.id)
        have h := hdec ▸ hI.sorted
        rw [List.pairwise_append] at h ⊢
        refine ⟨h.1, ?_, ?_⟩
        · rw [List.pairwise_cons] at h ⊢
          refine ⟨?_, h.2.1.2⟩
          intro y hy
          rw [hid1]
          exact h.2.1.1 y hy
        · intro x hx y hy
          rcases List.mem_cons.mp hy with rfl | hy'
          · rw [hid1]
            exact h.2.2 x hx c0 (by simp)
          · exact h.2.2 x hx y (List.mem_cons_of_mem _ hy')
      · show ∀ c ∈ pre ++ updContact c0 nOpt pOpt ntOpt :: post, c.id < st.next_id
        intro c hc
        rcases List.mem_append.mp hc with h | h
        · exact hI.bound c (by rw [hdec]; exact List.mem_append.mpr (Or.inl h))
        · rcases List.mem_cons.mp h with rfl | h'
          · rw [hid1]
            exact hI.bound c0 hc0m
          · exact hI.bound c
              (by rw [hdec]; exact List.mem_append.mpr (Or.inr (List.mem_cons_of_mem _ h')))
      · show ∀ (p : List Char) (i : Nat),
          i ∈ searchT (updNameT st.name_trie c0 cid nOpt) p ↔
            p ≠ [] ∧ ∃ c ∈ pre ++ updContact c0 nOpt pOpt ntOpt :: post,
              c.id = i ∧ p <+: c.name
        cases hno : nOpt with
        | none =>
          rw [show updNameT st.name_trie c0 cid none = st.name_trie from rfl]
          exact searchT_inv_same st.name_trie pre post c0 _ (fun c => c.name)
            (hdec ▸ hI.nameT) hid1 (by simp [updContact])
        | some n =>
          by_cases hn : n = c0.name
          · rw [show updNameT st.name_trie c0 cid (some n) = st.name_trie from by
              simp [updNameT, hn]]
            exact searchT_inv_same st.name_trie pre post c0 _ (fun c => c.name)
              (hdec ▸ hI.nameT) hid1 (by simp [updContact, hn])
          · rw [show updNameT st.name_trie c0 cid (some n) =
                insT (remT st.name_trie c0.name cid) n cid from by simp [updNameT, hn]]
            exact searchT_inv_update st.name_trie pre post c0 cid n (fun c => c.name)
              (hdec ▸ hI.nameT) hpre hpost hc0id _ (hid1.trans hc0id)
              (by simp [updContact])
      · show ∀ (p : List Char) (i : Nat),
          i ∈ searchT (updPhoneT st.phone_trie c0 cid pOpt) p ↔
            p ≠ [] ∧ ∃ c ∈ pre ++ updContact c0 nOpt pOpt ntOpt :: post,
              c.id = i ∧ p <+: c.phone
        cases hpo : pOpt with
        | none =>
          rw [show updPhoneT st.phone_trie c0 cid none = st.phone_trie from rfl]
          exact searchT_inv_same st.phone_trie pre post c0 _ (fun c => c.phone)
            (hdec ▸ hI.phoneT) hid1 (by simp [updContact])
        | some np =>
          by_cases hn : np = c0.phone
          · rw [show updPhoneT st.phone_trie c0 cid (some np) = st.phone_trie from by
              simp [updPhoneT, hn]]
            exact searchT_inv_same st.phone_trie pre post c0 _ (fun c => c.phone)
              (hdec ▸ hI.phoneT) hid1 (by simp [updContact, hn])
          · rw [show updPhoneT st.phone_trie c0 cid (some np) =
                insT (remT st.phone_trie c0.phone cid) np cid from by simp [updPhoneT, hn]]
            exact searchT_inv_update st.phone_trie pre post c0 cid np (fun c => c.phone)
              (hdec ▸ hI.phoneT) hpre hpost hc0id _ (hid1.trans hc0id)
              (by simp [updContact])
      · show ∀ (ph : List Char) (i : Nat),
          getA (updIdx st.phone_index c0 cid pOpt) ph = some i →
            ∃ c ∈ pre ++ updContact c0 nOpt pOpt ntOpt :: post, c.id = i ∧ c.phone = ph
        intro ph i hget
        cases hpo : pOpt with
        | none =>
          rw [hpo] at hget
          rw [show updIdx st.phone_index c0 cid none = st.phone_index from rfl] at hget
          obtain ⟨c, hcm, hci, hcp⟩ := hI.idxS ph i hget
          have hcm' : c ∈ pre ++ c0 :: post := hdec ▸ hcm
          rcases List.mem_append.mp hcm' with h | h
          · exact ⟨c, List.mem_append.mpr (Or.inl h), hci, hcp⟩
          · rcases List.mem_cons.mp h with rfl | h'
            · exact ⟨updContact c nOpt none ntOpt,
                List.mem_append.mpr (Or.inr (List.mem_cons_self _ _)), hci, hcp⟩
            · exact ⟨c, List.mem_append.mpr (Or.inr (List.mem_cons_of_mem _ h')), hci, hcp⟩
        | some np =>
          rw [hpo] at hget
          by_cases hn : np = c0.phone
          · rw [show updIdx st.phone_index c0 cid (some np) = st.phone_index from by
              simp [updIdx, hn]] at hget
            obtain ⟨c, hcm, hci, hcp⟩ := hI.idxS ph i hget
            have hcm' : c ∈ pre ++ c0 :: post := hdec ▸ hcm
            rcases List.mem_append.mp hcm' with h | h
            · exact ⟨c, List.mem_append.mpr (Or.inl h), hci, hcp⟩
            · rcases List.mem_cons.mp h with rfl | h'
              · refine ⟨updContact c nOpt (some np) ntOpt,
                  List.mem_append.mpr (Or.inr (List.mem_cons_self _ _)), hci, ?_⟩
                show (some np).getD c.phone = ph
                rw [Option.getD_some, hn]
                exact hcp
              · exact ⟨c, List.mem_append.mpr (Or.inr (List.mem_cons_of_mem _ h')), hci, hcp⟩
          · rw [show updIdx st.phone_index c0 cid (some np) =
                setA (delA st.phone_index c0.phone) np cid from by simp [updIdx, hn]] at hget
            by_cases hph : ph = np
            · subst hph
              rw [getA_setA_self] at hget
              injection hget with h
              refine ⟨updContact c0 nOpt (some ph) ntOpt,
                List.mem_append.mpr (Or.inr (List.mem_cons_self _ _)), hid1.trans (hc0id.trans h), rfl⟩
            · rw [getA_setA_ne _ _ _ _ hph] at hget
              by_cases hph2 : ph = c0.phone
              · subst hph2
                rw [getA_delA_self] at hget
                exact absurd hget (by simp)
              · rw [getA_delA_ne _ _ _ hph2] at hget
                obtain ⟨c, hcm, hci, hcp⟩ := hI.idxS ph i hget
                have hcm' : c ∈ pre ++ c0 :: post := hdec ▸ hcm
                rcases List.mem_append.mp hcm' with h | h
                · exact ⟨c, List.mem_append.mpr (Or.inl h), hci, hcp⟩
                · rcases List.mem_cons.mp h with rfl | h'
                  · exact absurd hcp.symm hph2
                  · exact ⟨c, List.mem_append.mpr (Or.inr (List.mem_cons_of_mem _ h')),
                      hci, hcp⟩
      · intro s hs
        injection hs with h
        exact h.symm
      · intro h
        exact absurd h (by simp)
theorem reachable_inv (st : Mgr) (h : Reachable st) : StInv st := by
  induction h with
  | empty => exact inv_empty
  | add st name phone note _ ih => exact inv_add st ih name phone note
  | del st phone _ ih => exact inv_del st ih phone
  | upd st phone nOpt pOpt ntOpt _ ih => exact inv_upd st ih phone nOpt pOpt ntOpt

/-- On invariant states, the tree-backed name search agrees (as a set)
with the brute-force linear scan, for every nonempty search string. -/
theorem find_eq_linear_name (st : Mgr) (hI : StInv st) (p : List Char) (hp : p ≠ [])
    (d : Contact) : d ∈ findByNamePfx st p ↔ d ∈ linearNamePfx st p := by
  rw [findByNamePfx, linearNamePfx]
  constructor
  · intro hd
    obtain ⟨i, hi, hdi⟩ := List.mem_filterMap.mp hd
    have hi' : i ∈ searchT st.name_trie p :=
      List.mem_dedup.mp ((mem_sortNats i _).mp hi)
    obtain ⟨hp', c, hcm, hci, hpre⟩ := (hI.nameT p i).mp hi'
    have hdm : d ∈ st.contacts := idDict_mem _ _ _ hdi
    have hdid : d.id = i := idDict_id _ _ _ hdi
    have hdc : d = c := by
      by_contra hne
      exact hI.nodup.forall (fun a b hab => hab.symm) hdm hcm hne (hdid.trans hci.symm)
    rw [List.mem_filter, List.isPrefixOf_iff_prefix]
    exact ⟨hdm, hdc ▸ hpre⟩
  · intro hd
    rw [List.mem_filter, List.isPrefixOf_iff_prefix] at hd
    obtain ⟨hdm, hpre⟩ := hd
    apply List.mem_filterMap.mpr
    refine ⟨d.id, ?_, idDict_of_mem st.contacts d hI.nodup hdm⟩
    rw [mem_sortNats, List.mem_dedup]
    exact (hI.nameT p d.id).mpr ⟨hp, d, hdm, rfl, hpre⟩

/-- Phone counterpart of `find_eq_linear_name`. -/
theorem find_eq_linear_phone (st : Mgr) (hI : StInv st) (p : List Char) (hp : p ≠ [])
    (d : Contact) : d ∈ findByPhonePfx st p ↔ d ∈ linearPhonePfx st p := by
  rw [findByPhonePfx, linearPhonePfx]
  constructor
  · intro hd
    obtain ⟨i, hi, hdi⟩ := List.mem_filterMap.mp hd
    have hi' : i ∈ searchT st.phone_trie p :=
      List.mem_dedup.mp ((mem_sortNats i _).mp hi)
    obtain ⟨hp', c, hcm, hci, hpre⟩ := (hI.phoneT p i).mp hi'
    have hdm : d ∈ st.contacts := idDict_mem _ _ _ hdi
    have hdid : d.id = i := idDict_id _ _ _ hdi
    have hdc : d = c := by
      by_contra hne
      exact hI.nodup.forall (fun a b hab => hab.symm) hdm hcm hne (hdid.trans hci.symm)
    rw [List.mem_filter, List.isPrefixOf_iff_prefix]
    exact ⟨hdm, hdc ▸ hpre⟩
  · intro hd
    rw [List.mem_filter, List.isPrefixOf_iff_prefix] at hd
    obtain ⟨hdm, hpre⟩ := hd
    apply List.mem_filterMap.mpr
    refine ⟨d.id, ?_, idDict_of_mem st.contacts d hI.nodup hdm⟩
    rw [mem_sortNats, List.mem_dedup]
    exact (hI.phoneT p d.id).mpr ⟨hp, d, hdm, rfl, hpre⟩

/-- A successful `update_contact`, characterized: the looked-up id names a
unique live contact, and the new state replaces exactly that contact and
reindexes it. -/
theorem update_success_char (st : Mgr) (hI : StInv st) (phone : List Char)
    (nOpt pOpt ntOpt : Option (List Char))
    (hs : (update_contact st phone nOpt pOpt ntOpt).1 = true) :
    ∃ cid c0 pre post,
      getA st.phone_index phone = some cid ∧
      c0.id = cid ∧ c0.phone = phone ∧
      st.contacts = pre ++ c0 :: post ∧
      (∀ c ∈ pre, c.id ≠ cid) ∧ (∀ c ∈ post, c.id ≠ cid) ∧
      (update_contact st phone nOpt pOpt ntOpt).2 =
        { contacts := pre ++ updContact c0 nOpt pOpt ntOpt :: post,
          phone_index := updIdx st.phone_index c0 cid pOpt,
          name_trie := updNameT st.name_trie c0 cid nOpt,
          phone_trie := updPhoneT st.phone_trie c0 cid pOpt,
          next_id := st.next_id,
          wal := [],
          snapshot := some (st.next_id, pre ++ updContact c0 nOpt pOpt ntOpt :: post) } := by
  cases hg : getA st.phone_index phone with
  | none => simp [update_contact, hg] at hs
  | some cid =>
    by_cases hdup : dupChk st.phone_index phone pOpt = true
    · simp only [update_contact, hg] at hs
      rw [if_pos hdup] at hs
      simp at hs
    · obtain ⟨c0, hc0m, hc0id, hc0ph⟩ := hI.idxS phone cid hg
      obtain ⟨pre, post, hdec, hpre, hpost⟩ :=
        exists_decomp st.contacts cid c0 hI.sorted hc0m hc0id
      have hfind : findC (pre ++ c0 :: post) cid = some c0 :=
        findC_append pre c0 post cid hpre hc0id
      have hrep : replaceFirst (pre ++ c0 :: post) cid (updContact c0 nOpt pOpt ntOpt) =
          pre ++ updContact c0 nOpt pOpt ntOpt :: post :=
        replaceFirst_append pre c0 post cid _ hpre hc0id
      refine ⟨cid, c0, pre, post, rfl, hc0id, hc0ph, hdec, hpre, hpost, ?_⟩
      simp only [update_contact, hg]
      rw [if_neg hdup]
      simp only [appendWal, applyUpdate]
      simp only [hdec, hfind, hrep, write_snapshot]

/-- A failed `update_contact` leaves the state untouched. -/
theorem update_fail (st : Mgr) (phone : List Char)
    (nOpt pOpt ntOpt : Option (List Char))
    (hs : (update_contact st phone nOpt pOpt ntOpt).1 = false) :
    (update_contact st phone nOpt pOpt ntOpt).2 = st := by
  cases hg : getA st.phone_index phone with
  | none => simp [update_contact, hg]
  | some cid =>
    by_cases hdup : dupChk st.phone_index phone pOpt = true
    · simp [update_contact, hg, hdup]
    · simp only [update_contact, hg] at hs
      rw [if_neg hdup] at hs
      simp at hs

/-- Rebuilding a tree by folding `insT` over a record list: lookup-level
characterization. -/
theorem mem_searchT_rebuild (f : Contact → List Char) :
    ∀ (cs : List Contact) (t : TrieNode) (p : List Char) (i : Nat),
    i ∈ searchT (cs.foldl (fun t c => insT t (f c) c.id) t) p ↔
      i ∈ searchT t p ∨ ∃ c ∈ cs, c.id = i ∧ p ≠ [] ∧ p <+: f c := by
  intro cs
  induction cs with
  | nil => simp
  | cons c rest ih =>
    intro t p i
    rw [List.foldl_cons, ih]
    constructor
    · rintro (h | ⟨c', hm, hci, hp, hpre⟩)
      · rcases (mem_searchT_insT p t (f c) c.id i).mp h with h' | ⟨hic, hp, hpre⟩
        · exact Or.inl h'
        · exact Or.inr ⟨c, by simp, hic.symm, hp, hpre⟩
      · exact Or.inr ⟨c', List.mem_cons_of_mem _ hm, hci, hp, hpre⟩
    · rintro (h | ⟨c', hm, hci, hp, hpre⟩)
      · exact Or.inl ((mem_searchT_insT p t (f c) c.id i).mpr (Or.inl h))
      · rcases List.mem_cons.mp hm with rfl | hm'
        · exact Or.inl ((mem_searchT_insT p t (f c') c'.id i).mpr
            (Or.inr ⟨hci.symm, hp, hpre⟩))
        · exact Or.inr ⟨c', hm', hci, hp, hpre⟩

theorem insSorted_perm (j : Nat) (l : List Nat) : List.Perm (insSorted j l) (j :: l) := by
  induction l with
  | nil => rfl
  | cons c r ih =>
    by_cases h : j ≤ c
    · simp [insSorted, h]
    · simp only [insSorted, if_neg h]
      exact (List.Perm.cons c ih).trans (List.Perm.swap j c r)

theorem sortNats_perm (l : List Nat) : List.Perm (sortNats l) l := by
  induction l with
  | nil => rfl
  | cons c r ih =>
    rw [sortNats_cons]
    exact (insSorted_perm c (sortNats r)).trans (List.Perm.cons c ih)
theorem reach_stA : Reachable stA :=
  Reachable.add Mgr.empty nmA ph1 [] Reachable.empty

theorem reach_stAB : Reachable stAB :=
  Reachable.add stA nmB ph2 [] reach_stA

theorem reach_stE4 : Reachable stE4 :=
  Reachable.upd stE3 [] none (some ['Y']) none
    (Reachable.upd stE2 ['1'] none (some []) none
      (Reachable.add stE1 ['B'] ['1'] []
        (Reachable.add Mgr.empty ['A'] [] [] Reachable.empty)))

theorem sorted_lt_map_filterMap (l : List Nat) (f : Nat → Option Contact)
    (hf : ∀ i c, f i = some c → c.id = i) (hnd : l.Nodup)
    (hs : l.Pairwise (· ≤ ·)) :
    ((l.filterMap f).map Contact.id).Pairwise (· < ·) := by
  have hsub := map_id_filterMap_sublist l f hf
  have hle := List.Pairwise.sublist hsub hs
  have hne : ((l.filterMap f).map Contact.id).Pairwise (· ≠ ·) :=
    List.Pairwise.sublist hsub hnd
  exact (hle.and hne).imp (fun h => lt_of_le_of_ne h.1 h.2)

/-! ### Claim C1 -/

/-- C1 (counterexample): with one live contact Alice/111, searching with
the empty string returns nothing from `find_by_name_prefix` while the
brute-force linear scan returns Alice — `Trie.insert` never adds ids to
the root node, so the claim fails for the empty search string. -/
theorem C1_cex :
    findByNamePfx stA [] = [] ∧
    linearNamePfx stA [] = [⟨1, nmA, ph1, []⟩] := ⟨rfl, rfl⟩

/-- C1 (amended): for every state reachable by add/update/delete from the
empty store and every nonempty search string `p`, `find_by_name_prefix p`
and `find_by_phone_prefix p` contain exactly the live records whose name
(resp. phone) starts with `p` — the same records as the brute-force
linear scans, with no stale and no missing ids.  (For the empty string
the tree search instead returns the empty set.) -/
theorem C1_find_matches_linear (st : Mgr) (h : Reachable st) (p : List Char)
    (hp : p ≠ []) (d : Contact) :
    (d ∈ findByNamePfx st p ↔ d ∈ linearNamePfx st p) ∧
    (d ∈ findByPhonePfx st p ↔ d ∈ linearPhonePfx st p) :=
  ⟨find_eq_linear_name st (reachable_inv st h) p hp d,
   find_eq_linear_phone st (reachable_inv st h) p hp d⟩

/-- C1 (witness): the amended claim instantiated at the one-contact store
and the search string "A". -/
theorem C1_witness :
    Reachable stA ∧ (['A'] ≠ ([] : List Char)) ∧
    ((⟨1, nmA, ph1, []⟩ : Contact) ∈ findByNamePfx stA ['A'] ↔
      (⟨1, nmA, ph1, []⟩ : Contact) ∈ linearNamePfx stA ['A']) :=
  ⟨reach_stA, by decide,
   (C1_find_matches_linear stA reach_stA ['A'] (by decide) ⟨1, nmA, ph1, []⟩).1⟩

/-! ### Claim C2 -/

/-- C2 (code bug, evaluation at the failing input): after
`add("A", "", "")`, `add("B", "1", "")` and
`update_contact("1", new_phone="")` — where the source's
`if new_phone and ...` truthiness test skips the duplicate check for the
empty string — the update reports success and both live records carry the
same (empty) phone, violating the phone-uniqueness invariant. -/
theorem C2_bug_eval :
    (update_contact stE2 ['1'] none (some []) none).1 = true ∧
    stE3.contacts = [⟨1, ['A'], [], []⟩, ⟨2, ['B'], [], []⟩] := ⟨rfl, rfl⟩

/-! ### Claim C3 -/

/-- C3 (code bug, evaluation at the failing input): a crash between the
snapshot rename and the WAL truncation of `_write_snapshot` leaves a
snapshot that already contains the added record while the WAL still holds
its entry; on restart `_apply_add_replay` appends unconditionally, so
recovery produces two records with id 1. -/
theorem C3_bug_eval :
    (startup (some (2, [⟨1, nmA, ph1, []⟩])) [some (.add 1 nmA ph1 [])]).map
        (fun s => s.contacts) =
      some [⟨1, nmA, ph1, []⟩, ⟨1, nmA, ph1, []⟩] := rfl

/-! ### Claim C4 -/

/-- C4 (code bug, evaluation at the failing input): `_replay_wal` calls
`json.loads` on every line with no exception handler, so a WAL holding
one complete add entry followed by a torn (malformed) line makes startup
raise instead of applying the complete entry and succeeding. -/
theorem C4_bug_eval :
    startup none [some (.add 1 ['D', 'a', 'n'] ['3', '3', '3'] []), none] = none := rfl

/-! ### Claim C5 -/

/-- C5 (counterexample): insert key "ab" for id 1 into the empty tree and
remove it again.  The node for 'b' is pruned, but the node for 'a' — whose
prune check ran before the deeper discard emptied it — survives, so after
the remove a reachable node with an empty id set and no children remains,
refuting the claimed walk-back-up pruning. -/
theorem C5_cex :
    remT (insT (.node [] []) ['a', 'b'] 1) ['a', 'b'] 1 =
      .node [('a', .node [] [])] [] ∧
    getA (remT (insT (.node [] []) ['a', 'b'] 1) ['a', 'b'] 1).children 'a' =
      some (.node [] []) := ⟨rfl, rfl⟩

/-- C5 (amended): `remove(key, id)` is a no-op when some character of the
key has no child along the path; otherwise, at the lookup level, it
discards `id` from exactly the nonempty paths spelling a prefix of `key`
and keeps every other id — but prunes only top-down at visit time, so a
node emptied by its own child's pruning may remain reachable with an
empty id set and no children. -/
theorem C5_remove_char :
    (∀ (t : TrieNode) (k : List Char) (cid : Nat),
      pathEx t k = false → remT t k cid = t) ∧
    (∀ (t : TrieNode) (k : List Char) (cid : Nat) (p : List Char) (i : Nat),
      pathEx t k = true →
      (i ∈ searchT (remT t k cid) p ↔
        i ∈ searchT t p ∧ ¬(i = cid ∧ p ≠ [] ∧ p <+: k))) :=
  ⟨remT_of_pathEx_false, mem_searchT_remT⟩

/-- C5 (witness): both halves of the amended claim at concrete trees. -/
theorem C5_witness :
    (pathEx (TrieNode.node [] []) ['a'] = false ∧
      remT (TrieNode.node [] []) ['a'] 7 = TrieNode.node [] []) ∧
    (pathEx (insT (TrieNode.node [] []) ['a'] 1) ['a'] = true ∧
      (2 ∈ searchT (remT (insT (TrieNode.node [] []) ['a'] 1) ['a'] 1) ['a'] ↔
        2 ∈ searchT (insT (TrieNode.node [] []) ['a'] 1) ['a'] ∧
          ¬(2 = 1 ∧ ['a'] ≠ [] ∧ ['a'] <+: ['a']))) :=
  ⟨⟨rfl, C5_remove_char.1 _ _ _ rfl⟩, ⟨rfl, C5_remove_char.2 _ _ _ _ _ rfl⟩⟩
/-! ### Claim C6 -/

/-- C6 (counterexample): in the reachable state `stE4` — produced by the
empty-phone update slipping past the duplicate check and then moving the
colliding record away — contact 1 is live with the empty phone but the
phone map has no binding for it; after `write` + `load` the rebuilt map
answers the empty-phone exact query with contact 1, differing from the
original state's index. -/
theorem C6_cex :
    Reachable stE4 ∧
    getA stE4.phone_index [] = none ∧
    getA (loadSnap (write_snapshot stE4).snapshot []).phone_index [] = some 1 :=
  ⟨reach_stE4, rfl, rfl⟩

/-- C6 (amended): for every reachable state, writing the snapshot and
loading it back restores the record sequence and `next_id` exactly, and
the name and phone trees rebuilt on load answer every query identically
to the original state's trees; the rebuilt phone-exact map, however, may
answer differently when the original map has lost a live record's binding
(possible only through the empty-phone update bug). -/
theorem C6_roundtrip (st : Mgr) (h : Reachable st) :
    (loadSnap (write_snapshot st).snapshot []).contacts = st.contacts ∧
    (loadSnap (write_snapshot st).snapshot []).next_id = st.next_id ∧
    (∀ (p : List Char) (i : Nat),
      i ∈ searchT (loadSnap (write_snapshot st).snapshot []).name_trie p ↔
        i ∈ searchT st.name_trie p) ∧
    (∀ (p : List Char) (i : Nat),
      i ∈ searchT (loadSnap (write_snapshot st).snapshot []).phone_trie p ↔
        i ∈ searchT st.phone_trie p) := by
  have hI := reachable_inv st h
  have hsnap : (write_snapshot st).snapshot = some (st.next_id, st.contacts) := rfl
  rw [hsnap]
  refine ⟨rfl, rfl, ?_, ?_⟩
  · intro p i
    show i ∈ searchT
        (st.contacts.foldl (fun t c => insT t c.name c.id) (.node [] [])) p ↔ _
    rw [mem_searchT_rebuild (fun c => c.name) st.contacts (.node [] []) p i,
      hI.nameT, searchT_empty_node]
    simp only [List.not_mem_nil, false_or]
    constructor
    · rintro ⟨c, hm, hci, hp, hpre⟩
      exact ⟨hp, c, hm, hci, hpre⟩
    · rintro ⟨hp, c, hm, hci, hpre⟩
      exact ⟨c, hm, hci, hp, hpre⟩
  · intro p i
    show i ∈ searchT
        (st.contacts.foldl (fun t c => insT t c.phone c.id) (.node [] [])) p ↔ _
    rw [mem_searchT_rebuild (fun c => c.phone) st.contacts (.node [] []) p i,
      hI.phoneT, searchT_empty_node]
    simp only [List.not_mem_nil, false_or]
    constructor
    · rintro ⟨c, hm, hci, hp, hpre⟩
      exact ⟨hp, c, hm, hci, hpre⟩
    · rintro ⟨hp, c, hm, hci, hpre⟩
      exact ⟨c, hm, hci, hp, hpre⟩

/-- C6 (witness): the amended round-trip at the one-contact store. -/
theorem C6_witness :
    Reachable stA ∧
    (loadSnap (write_snapshot stA).snapshot []).contacts = stA.contacts :=
  ⟨reach_stA, (C6_roundtrip stA reach_stA).1⟩

/-! ### Claim C7 -/

/-- C7 (counterexample): in the reachable two-contact state `stE2`
(contact 1 with the empty phone, contact 2 with phone "1"), the update
`update_contact("1", new_phone="")` targets contact 2 and succeeds, yet
it overwrites contact 1's phone-map binding for the empty phone — an
index entry of a record the update did not address is changed. -/
theorem C7_cex :
    getA stE2.phone_index [] = some 1 ∧
    (update_contact stE2 ['1'] none (some []) none).1 = true ∧
    getA (update_contact stE2 ['1'] none (some []) none).2.phone_index [] = some 2 :=
  ⟨rfl, rfl, rfl⟩

/-- C7 (amended): a successful update applies only the supplied fields to
the unique live record it addresses — omitted fields keep their previous
values and the id never changes — and leaves every other record, its tree
entries, and its phone-map binding unchanged, except that a phone-map
binding equal to the update's new phone may be overwritten (reachable
only via the unchecked empty new phone). -/
theorem C7_partial_update (st : Mgr) (h : Reachable st) (phone : List Char)
    (nOpt pOpt ntOpt : Option (List Char))
    (hs : (update_contact st phone nOpt pOpt ntOpt).1 = true) :
    ∃ pre c post,
      st.contacts = pre ++ c :: post ∧
      (update_contact st phone nOpt pOpt ntOpt).2.contacts =
        pre ++ updContact c nOpt pOpt ntOpt :: post ∧
      (updContact c nOpt pOpt ntOpt).id = c.id ∧
      (updContact c nOpt pOpt ntOpt).name = nOpt.getD c.name ∧
      (updContact c nOpt pOpt ntOpt).phone = pOpt.getD c.phone ∧
      (updContact c nOpt pOpt ntOpt).note = ntOpt.getD c.note ∧
      (update_contact st phone nOpt pOpt ntOpt).2.next_id = st.next_id ∧
      (∀ (p : List Char) (i : Nat), i ≠ c.id →
        (i ∈ searchT (update_contact st phone nOpt pOpt ntOpt).2.name_trie p ↔
          i ∈ searchT st.name_trie p)) ∧
      (∀ (p : List Char) (i : Nat), i ≠ c.id →
        (i ∈ searchT (update_contact st phone nOpt pOpt ntOpt).2.phone_trie p ↔
          i ∈ searchT st.phone_trie p)) ∧
      (∀ ph : List Char, ph ≠ c.phone → (∀ np, pOpt = some np → ph ≠ np) →
        getA (update_contact st phone nOpt pOpt ntOpt).2.phone_index ph =
          getA st.phone_index ph) := by
  have hI := reachable_inv st h
  obtain ⟨cid, c0, pre, post, hg, hc0id, hc0ph, hdec, hpre, hpost, hst⟩ :=
    update_success_char st hI phone nOpt pOpt ntOpt hs
  refine ⟨pre, c0, post, hdec, by rw [hst], rfl, rfl, rfl, rfl, by rw [hst], ?_, ?_, ?_⟩
  · intro p i hi
    rw [hst]
    show i ∈ searchT (updNameT st.name_trie c0 cid nOpt) p ↔ _
    have hicid : i ≠ cid := hc0id ▸ hi
    cases nOpt with
    | none => exact Iff.rfl
    | some n =>
      by_cases hn : n = c0.name
      · rw [show updNameT st.name_trie c0 cid (some n) = st.name_trie from by
          simp [updNameT, hn]]
      · rw [show updNameT st.name_trie c0 cid (some n) =
            insT (remT st.name_trie c0.name cid) n cid from by simp [updNameT, hn]]
        have hpx : pathEx st.name_trie c0.name = true :=
          pathEx_of_key st.name_trie (fun c => c.name) (hdec ▸ hI.nameT) c0 (by simp)
        rw [mem_searchT_insT p _ n cid i,
          mem_searchT_remT st.name_trie c0.name cid p i hpx]
        constructor
        · rintro (⟨h1, _⟩ | ⟨hic, _, _⟩)
          · exact h1
          · exact absurd hic hicid
        · intro h1
          exact Or.inl ⟨h1, fun hc => hicid hc.1⟩
  · intro p i hi
    rw [hst]
    show i ∈ searchT (updPhoneT st.phone_trie c0 cid pOpt) p ↔ _
    have hicid : i ≠ cid := hc0id ▸ hi
    cases pOpt with
    | none => exact Iff.rfl
    | some np =>
      by_cases hn : np = c0.phone
      · rw [show updPhoneT st.phone_trie c0 cid (some np) = st.phone_trie from by
          simp [updPhoneT, hn]]
      · rw [show updPhoneT st.phone_trie c0 cid (some np) =
            insT (remT st.phone_trie c0.phone cid) np cid from by simp [updPhoneT, hn]]
        have hpx : pathEx st.phone_trie c0.phone = true :=
          pathEx_of_key st.phone_trie (fun c => c.phone) (hdec ▸ hI.phoneT) c0 (by simp)
        rw [mem_searchT_insT p _ np cid i,
          mem_searchT_remT st.phone_trie c0.phone cid p i hpx]
        constructor
        · rintro (⟨h1, _⟩ | ⟨hic, _, _⟩)
          · exact h1
          · exact absurd hic hicid
        · intro h1
          exact Or.inl ⟨h1, fun hc => hicid hc.1⟩
  · intro ph hph hnp
    rw [hst]
    show getA (updIdx st.phone_index c0 cid pOpt) ph = getA st.phone_index ph
    cases pOpt with
    | none => rfl
    | some np =>
      by_cases hn : np = c0.phone
      · rw [show updIdx st.phone_index c0 cid (some np) = st.phone_index from by
          simp [updIdx, hn]]
      · rw [show updIdx st.phone_index c0 cid (some np) =
            setA (delA st.phone_index c0.phone) np cid from by simp [updIdx, hn]]
        rw [getA_setA_ne _ _ _ _ (hnp np rfl), getA_delA_ne _ _ _ hph]

/-- C7 (witness): a note-only update of Bob through his phone, in the
two-contact store. -/
theorem C7_witness :
    ((update_contact stAB ph2 none none (some wrk)).1 = true) ∧
    (∃ pre c post,
      stAB.contacts = pre ++ c :: post ∧
      (update_contact stAB ph2 none none (some wrk)).2.contacts =
        pre ++ updContact c none none (some wrk) :: post ∧
      (updContact c none none (some wrk)).id = c.id ∧
      (updContact c none none (some wrk)).name = Option.getD none c.name ∧
      (updContact c none none (some wrk)).phone = Option.getD none c.phone ∧
      (updContact c none none (some wrk)).note = Option.getD (some wrk) c.note ∧
      (update_contact stAB ph2 none none (some wrk)).2.next_id = stAB.next_id ∧
      (∀ (p : List Char) (i : Nat), i ≠ c.id →
        (i ∈ searchT (update_contact stAB ph2 none none (some wrk)).2.name_trie p ↔
          i ∈ searchT stAB.name_trie p)) ∧
      (∀ (p : List Char) (i : Nat), i ≠ c.id →
        (i ∈ searchT (update_contact stAB ph2 none none (some wrk)).2.phone_trie p ↔
          i ∈ searchT stAB.phone_trie p)) ∧
      (∀ ph : List Char, ph ≠ c.phone →
        (∀ np, (none : Option (List Char)) = some np → ph ≠ np) →
        getA (update_contact stAB ph2 none none (some wrk)).2.phone_index ph =
          getA stAB.phone_index ph)) :=
  ⟨rfl, C7_partial_update stAB reach_stAB ph2 none none (some wrk) rfl⟩
/-! ### Claim C8 -/

/-- C8: in every reachable state, `list_contacts` returns the live
records in strictly ascending id order; the id sequence is untouched by
any update (edits replace a record in place); and a snapshot/recover
cycle from the state's own files reproduces the same record list. -/
theorem C8_list_sorted_stable (st : Mgr) (h : Reachable st) :
    (list_contacts st).Pairwise (fun a b => a.id < b.id) ∧
    (∀ (phone : List Char) (nOpt pOpt ntOpt : Option (List Char)),
      (list_contacts (update_contact st phone nOpt pOpt ntOpt).2).map Contact.id =
        (list_contacts st).map Contact.id) ∧
    (∃ st', startup st.snapshot st.wal = some st' ∧
      list_contacts st' = list_contacts st) := by
  have hI := reachable_inv st h
  refine ⟨hI.sorted, ?_, ?_⟩
  · intro phone nOpt pOpt ntOpt
    cases hb : (update_contact st phone nOpt pOpt ntOpt).1 with
    | false => rw [update_fail st phone nOpt pOpt ntOpt hb]
    | true =>
      obtain ⟨cid, c0, pre, post, hg, hc0id, hc0ph, hdec, hpre, hpost, hst⟩ :=
        update_success_char st hI phone nOpt pOpt ntOpt hb
      rw [hst]
      show (pre ++ updContact c0 nOpt pOpt ntOpt :: post).map Contact.id =
        st.contacts.map Contact.id
      rw [hdec]
      simp only [List.map_append, List.map_cons]
      rw [show (updContact c0 nOpt pOpt ntOpt).id = c0.id from rfl]
  · rw [hI.walE]
    cases hsnap : st.snapshot with
    | none =>
      obtain ⟨hc, _⟩ := hI.snapN hsnap
      refine ⟨loadSnap none [], rfl, ?_⟩
      show (loadSnap none []).contacts = st.contacts
      rw [hc]
      rfl
    | some s =>
      have hse := hI.snapE s hsnap
      subst hse
      exact ⟨loadSnap (some (st.next_id, st.contacts)) [], rfl, rfl⟩

/-- C8 (witness): the sorted-order part at the one-contact store. -/
theorem C8_witness :
    Reachable stA ∧
    (list_contacts stA).Pairwise (fun a b => a.id < b.id) :=
  ⟨reach_stA, (C8_list_sorted_stable stA reach_stA).1⟩

/-! ### Claim C9 -/

/-- C9: `add("Alice","111","")` yields id 1; a second
`add("Alice","222","work")` succeeds with id 2 (duplicate names are
allowed); a subsequent `add("Carl","111","")` is rejected (the duplicate
phone is reported by returning no id) and leaves the whole state —
records, indexes, `next_id`, and both files — exactly as before. -/
theorem C9_scenario :
    (add_contact Mgr.empty nmA ph1 []).1 = some 1 ∧
    (add_contact stA nmA ph2 wrk).1 = some 2 ∧
    (add_contact stA2 ['C', 'a', 'r', 'l'] ph1 []).1 = none ∧
    (add_contact stA2 ['C', 'a', 'r', 'l'] ph1 []).2 = stA2 :=
  ⟨rfl, rfl, rfl, rfl⟩

/-! ### Claim C10 -/

/-- C10: for every state and every search string, both find operations
return their records in strictly ascending id order — the unordered id
set from the tree is sorted (and deduplicated) before records are
collected, so the output order is deterministic. -/
theorem C10_find_sorted (st : Mgr) (p : List Char) :
    ((findByNamePfx st p).map Contact.id).Pairwise (· < ·) ∧
    ((findByPhonePfx st p).map Contact.id).Pairwise (· < ·) := by
  constructor
  · exact sorted_lt_map_filterMap _ _ (fun i c hc => idDict_id _ _ _ hc)
      ((sortNats_perm _).nodup_iff.mpr (List.nodup_dedup _)) (sorted_sortNats _)
  · exact sorted_lt_map_filterMap _ _ (fun i c hc => idDict_id _ _ _ hc)
      ((sortNats_perm _).nodup_iff.mpr (List.nodup_dedup _)) (sorted_sortNats _)
